import Mathlib

/-!
# Sinkproof — verification development

Shallow embedding of the Sinkproof password-hashing core
(`src/hasher.rs`, `src/encryption.rs`, `src/storage.rs`, `src/verifier.rs`).

Bytes are modelled as `Nat` (values `< 256` where it matters), byte strings
as `List Nat`, and text as `List Char`.  The external cryptographic library
primitives (SHA-256 from the `sha2` crate, AES-256-GCM from the `aes_gcm`
crate) are not code of this repository; they are modelled as explicit
function parameters:

* `Hash : List Nat → List Nat` stands for SHA-256; theorems that need it
  assume `∀ x, (Hash x).length = 32`, the documented output size.
* `E : List Nat → List Nat → List Nat → List Nat` stands for AES-256-GCM
  encryption (key → nonce → plaintext → ciphertext‖tag), and
  `D : List Nat → List Nat → List Nat → Option (List Nat)` for decryption;
  theorems that need round-trip correctness of the AEAD assume it as a
  hypothesis on the phrase actually encrypted.

Randomness (the salt from `generate_salt` and the nonce from
`Aes256Gcm::generate_nonce`) is modelled by passing the drawn values as
explicit arguments.  `usize` arithmetic is `Nat` with an explicit
`% 2 ^ 64` where the source multiplies (`memory_mb * 1024 * 1024`),
matching release-mode wrapping semantics; `usize::from_str` is modelled
with its `< 2 ^ 64` overflow check.
-/

/-- Little-endian byte encoding of a `usize`, as produced by
`usize::to_le_bytes()` (8 bytes on a 64-bit target). -/
def leBytes8 (n : Nat) : List Nat :=
  (List.range 8).map fun k => n / 256 ^ k % 256

/-- `Vec::rotate_left(mid)` for `mid ≤ len`: the element at index `mid`
moves to the front. -/
def rotl (l : List Nat) (n : Nat) : List Nat :=
  l.drop n ++ l.take n

/-- One iteration of the memory-fill loop in `thread_worker`
(`src/hasher.rs` lines 97–128): SHA-256 chaining, XOR mixing with
`memory[i % memory.len()]`, byte rotation every 100 iterations, push,
and the periodic distant-memory remix. -/
def fillStep (Hash : List Nat → List Nat) (st : List (List Nat) × List Nat)
    (i : Nat) : List (List Nat) × List Nat :=
  let memory := st.1
  let afterChain := Hash (st.2 ++ leBytes8 i)
  let afterXor :=
    if 0 < i then
      let prev := memory.getD (i % memory.length) []
      afterChain.enum.map fun p => Nat.xor p.2 (prev.getD (p.1 % 32) 0)
    else afterChain
  let afterRot := if i % 100 = 0 then rotl afterXor (i % 16 + 1) else afterXor
  let memory2 := memory ++ [afterRot]
  let next :=
    if 1000 < i ∧ i % 500 = 0 then
      Hash (afterRot ++ memory2.getD (i / 2 % memory2.length) [])
    else afterRot
  (memory2, next)

/-- The whole memory-fill loop of `thread_worker`: initial hash
`h0 = Hash(password ‖ salt ‖ le_bytes(thread_index))`, then
`memory_size / 32` iterations of `fillStep` starting from an empty table.
Returns the final table and the final chaining value. -/
def fillTable (Hash : List Nat → List Nat) (password salt : List Nat)
    (thread_index memory_size : Nat) : List (List Nat) × List Nat :=
  let h0 := Hash (password ++ salt ++ leBytes8 thread_index)
  (List.range (memory_size / 32)).foldl (fillStep Hash) ([], h0)

/-- The `while result.len() < 512 { result.extend_from_slice(&current_hash) }`
padding loop of `thread_worker`.  The loop appends at least one byte per
pass whenever `ch` is non-empty (it is a 32-byte SHA-256 output in the
source), so a fuel of 512 passes makes the model exact. -/
def padLoop (ch : List Nat) : List Nat → Nat → List Nat
  | result, 0 => result
  | result, fuel + 1 =>
    if result.length < 512 then padLoop ch (result ++ ch) fuel else result

/-- `thread_worker` (`src/hasher.rs` lines 81–146): run the fill loop,
concatenate the last 16 table entries, pad with the final chaining value
up to 512 bytes, truncate to exactly 512 bytes. -/
def thread_worker (Hash : List Nat → List Nat) (password salt : List Nat)
    (thread_index memory_size : Nat) : List Nat :=
  let st := fillTable Hash password salt thread_index memory_size
  let memory := st.1
  let start := if 16 < memory.length then memory.length - 16 else 0
  let result := (memory.drop start).flatten
  (padLoop st.2 result 512).take 512

/-- `derive_key` (`src/hasher.rs` lines 150–159): feed every thread output
into one SHA-256 in order and finalize — i.e. hash their concatenation. -/
def derive_key (Hash : List Nat → List Nat)
    (thread_outputs : List (List Nat)) : List Nat :=
  Hash thread_outputs.flatten

/-- UTF-8 bytes of the fixed verification phrase constant of
`src/encryption.rs` (the phrase is plain ASCII, so byte values are the
character codes). -/
def VERIFICATION_PHRASE : List Nat :=
  "No vendo cigarros sueltos".toList.map Char.toNat

/-- The key-normalization policy shared by `encrypt_phrase` and
`decrypt_phrase`: truncate to the first 32 bytes if longer, hash if
shorter, use as-is if exactly 32.  The source implements the short-key
case by a recursive self-call on `Hash key`; since the SHA-256 output is
32 bytes that recursion always terminates after this single step, so one
application of this function is the exact denotation. -/
def keyNormalize (Hash : List Nat → List Nat) (key : List Nat) : List Nat :=
  if 32 < key.length then key.take 32
  else if key.length < 32 then Hash key
  else key

/-- `encrypt_phrase` (`src/encryption.rs` lines 16–47): normalize the key,
build the cipher (fails iff the key is not 32 bytes), encrypt the fixed
phrase under the freshly drawn `nonce`, and return `nonce ‖ ciphertext‖tag`.
The AEAD encryption itself (`cipher.encrypt`) never fails for this input
size and is modelled by the total parameter `E`.  Error messages keep the
static part of the source's `format!` strings. -/
def encrypt_phrase (Hash : List Nat → List Nat)
    (E : List Nat → List Nat → List Nat → List Nat)
    (nonce key : List Nat) : Except String (List Nat) :=
  let k := keyNormalize Hash key
  if k.length ≠ 32 then .error "Failed to create cipher"
  else .ok (nonce ++ E k nonce VERIFICATION_PHRASE)

/-- `decrypt_phrase` (`src/encryption.rs` lines 57–90): normalize the key,
reject blobs shorter than 12 bytes, split off the 12-byte nonce, build the
cipher, and decrypt.  The plaintext is kept as bytes: the source's final
`String::from_utf8` step is dropped because every comparison downstream is
against the ASCII phrase constant, for which string equality and byte
equality coincide (and a non-UTF-8 plaintext can never equal the phrase). -/
def decrypt_phrase (Hash : List Nat → List Nat)
    (D : List Nat → List Nat → List Nat → Option (List Nat))
    (key encrypted_data : List Nat) : Except String (List Nat) :=
  let k := keyNormalize Hash key
  if encrypted_data.length < 12 then .error "Encrypted data too short"
  else
    let nonce := encrypted_data.take 12
    let ciphertext := encrypted_data.drop 12
    if k.length ≠ 32 then .error "Failed to create cipher"
    else
      match D k nonce ciphertext with
      | some pt => .ok pt
      | none => .error "Decryption failed"

/-- `SinkproofHash` (`src/storage.rs` lines 4–11). -/
structure SinkproofHash where
  version : List Char
  threads : Nat
  memory_mb : Nat
  salt : List Nat
  encrypted_phrase : List Nat
  deriving DecidableEq

/-- One sextet of the standard base64 alphabet, as a character. -/
def b64EncodeChar (n : Nat) : Char :=
  if n < 26 then Char.ofNat (65 + n)
  else if n < 52 then Char.ofNat (97 + (n - 26))
  else if n < 62 then Char.ofNat (48 + (n - 52))
  else if n = 62 then '+'
  else '/'

/-- Standard base64 encoding with `=` padding (the `base64` crate's
`general_purpose::STANDARD` engine). -/
def b64Encode : List Nat → List Char
  | [] => []
  | [x] => [b64EncodeChar (x / 4), b64EncodeChar (x % 4 * 16), '=', '=']
  | [x, y] => [b64EncodeChar (x / 4), b64EncodeChar (x % 4 * 16 + y / 16),
      b64EncodeChar (y % 16 * 4), '=']
  | x :: y :: z :: rest =>
    b64EncodeChar (x / 4) :: b64EncodeChar (x % 4 * 16 + y / 16) ::
      b64EncodeChar (y % 16 * 4 + z / 64) :: b64EncodeChar (z % 64) ::
      b64Encode rest

/-- Value of one standard-base64 alphabet character. -/
def b64DecodeChar? (c : Char) : Option Nat :=
  let n := c.toNat
  if 65 ≤ n ∧ n ≤ 90 then some (n - 65)
  else if 97 ≤ n ∧ n ≤ 122 then some (n - 71)
  else if 48 ≤ n ∧ n ≤ 57 then some (n + 4)
  else if n = 43 then some 62
  else if n = 47 then some 63
  else none

/-- Strict standard base64 decoding (canonical `=` padding required, `=`
only in the final 4-character group, non-canonical trailing bits
rejected), as the `base64` crate's `general_purpose::STANDARD` engine. -/
def b64Decode? : List Char → Option (List Nat)
  | [] => some []
  | c1 :: c2 :: c3 :: c4 :: rest =>
    if c3 = '=' ∨ c4 = '=' then
      if rest = [] ∧ c4 = '=' then
        if c3 = '=' then
          match b64DecodeChar? c1, b64DecodeChar? c2 with
          | some a, some b =>
            if b % 16 = 0 then some [a * 4 + b / 16] else none
          | _, _ => none
        else
          match b64DecodeChar? c1, b64DecodeChar? c2, b64DecodeChar? c3 with
          | some a, some b, some c =>
            if c % 4 = 0 then some [a * 4 + b / 16, b % 16 * 16 + c / 4]
            else none
          | _, _, _ => none
      else none
    else
      match b64DecodeChar? c1, b64DecodeChar? c2, b64DecodeChar? c3,
          b64DecodeChar? c4, b64Decode? rest with
      | some a, some b, some c, some d, some bs =>
        some ((a * 4 + b / 16) :: (b % 16 * 16 + c / 4) :: (c % 4 * 64 + d) :: bs)
      | _, _, _, _, _ => none
  | _ => none

/-- Base-10 digits of `n`, least significant first, driven by explicit
fuel (`fuel ≥ n` makes it exact). -/
def natDigitsRev : Nat → Nat → List Nat
  | 0, _ => []
  | fuel + 1, n => if n = 0 then [] else n % 10 :: natDigitsRev fuel (n / 10)

/-- Decimal rendering of a `usize`, as `format!("{}")` produces it. -/
def natRepr (n : Nat) : List Char :=
  if n = 0 then ['0']
  else (natDigitsRev n n).reverse.map fun d => Char.ofNat (48 + d)

/-- `str::parse::<usize>()`: an optional leading `+`, then one or more
ASCII digits, rejecting values that overflow 64 bits. -/
def parseUsize? (s : List Char) : Option Nat :=
  let digits := if s.headD ' ' = '+' then s.tail else s
  if digits.isEmpty then none
  else if digits.all fun c => decide (48 ≤ c.toNat ∧ c.toNat ≤ 57) then
    let n := digits.foldl (fun acc c => acc * 10 + (c.toNat - 48)) 0
    if n < 2 ^ 64 then some n else none
  else none

/-- `str::split(':')`: split on every separator, keeping empty pieces. -/
def splitCh (sep : Char) : List Char → List (List Char)
  | [] => [[]]
  | c :: cs =>
    if c = sep then [] :: splitCh sep cs
    else
      match splitCh sep cs with
      | [] => [[c]]
      | p :: ps => (c :: p) :: ps

/-- `SinkproofHash::to_string` (`src/storage.rs` lines 16–28):
`"Sinkproof:{version}:{threads}:{memory_mb}:{salt_b64}:{phrase_b64}"`. -/
def SinkproofHash.to_string (h : SinkproofHash) : List Char :=
  "Sinkproof".toList ++ ':' :: h.version ++ ':' :: natRepr h.threads ++
    ':' :: natRepr h.memory_mb ++ ':' :: b64Encode h.salt ++
    ':' :: b64Encode h.encrypted_phrase

/-- `SinkproofHash::from_string` (`src/storage.rs` lines 31–67): split on
`:`, require 6 parts, fixed first literal, numeric fields 2 and 3, base64
fields 4 and 5.  Error messages keep the static part of the source's
`format!` strings. -/
def SinkproofHash.from_string (s : List Char) : Except String SinkproofHash :=
  let parts := splitCh ':' s
  if parts.length ≠ 6 then .error "Invalid hash format: expected 6 parts"
  else if parts.getD 0 [] ≠ "Sinkproof".toList then
    .error "Invalid hash name: expected Sinkproof"
  else
    match parseUsize? (parts.getD 2 []) with
    | none => .error "Invalid threads value"
    | some threads =>
      match parseUsize? (parts.getD 3 []) with
      | none => .error "Invalid memory value"
      | some memory_mb =>
        match b64Decode? (parts.getD 4 []) with
        | none => .error "Invalid salt encoding"
        | some salt =>
          match b64Decode? (parts.getD 5 []) with
          | none => .error "Invalid encrypted phrase encoding"
          | some enc => .ok ⟨parts.getD 1 [], threads, memory_mb, salt, enc⟩

/-- `hash_password` (`src/hasher.rs` lines 24–77).  The randomly drawn
`salt` and AEAD `nonce` are explicit arguments; the parallel fan-out/join
over thread indices `0..threads` is denoted by an in-order map (workers
are pure and joined in spawn order). -/
def hash_password (Hash : List Nat → List Nat)
    (E : List Nat → List Nat → List Nat → List Nat)
    (salt nonce password : List Nat) (threads memory_mb : Nat) :
    Except String SinkproofHash :=
  if threads = 0 then .error "Number of threads must be greater than 0"
  else if memory_mb = 0 then .error "Memory size must be greater than 0"
  else
    let memory_size := memory_mb * 1024 * 1024 % 2 ^ 64
    let thread_outputs := (List.range threads).map fun thread_index =>
      thread_worker Hash password salt thread_index memory_size
    let key := derive_key Hash thread_outputs
    match encrypt_phrase Hash E nonce key with
    | .error e => .error e
    | .ok encrypted_phrase =>
      .ok ⟨"v1".toList, threads, memory_mb, salt, encrypted_phrase⟩

/-- `verify_password` (`src/verifier.rs` lines 15–60): parse the record
(propagating its error), recompute the digests with the stored
parameters, derive the key, and translate the decryption outcome into a
boolean (`true` iff the plaintext equals the phrase; any decryption error
becomes `false`). -/
def verify_password (Hash : List Nat → List Nat)
    (D : List Nat → List Nat → List Nat → Option (List Nat))
    (password : List Nat) (stored_hash : List Char) : Except String Bool :=
  match SinkproofHash.from_string stored_hash with
  | .error e => .error e
  | .ok hash =>
    let memory_size := hash.memory_mb * 1024 * 1024 % 2 ^ 64
    let thread_outputs := (List.range hash.threads).map fun thread_index =>
      thread_worker Hash password hash.salt thread_index memory_size
    let key := derive_key Hash thread_outputs
    match decrypt_phrase Hash D key hash.encrypted_phrase with
    | .ok decrypted => .ok (decide (decrypted = VERIFICATION_PHRASE))
    | .error _ => .ok false

/-- `verify_password_robust` (`src/verifier.rs` lines 64–104): the
"alternative" verification entry point; its body is line-for-line the
same computation as `verify_password`. -/
def verify_password_robust (Hash : List Nat → List Nat)
    (D : List Nat → List Nat → List Nat → Option (List Nat))
    (password : List Nat) (stored_hash : List Char) : Except String Bool :=
  match SinkproofHash.from_string stored_hash with
  | .error e => .error e
  | .ok hash =>
    let memory_size := hash.memory_mb * 1024 * 1024 % 2 ^ 64
    let thread_outputs := (List.range hash.threads).map fun thread_index =>
      thread_worker Hash password hash.salt thread_index memory_size
    let key := derive_key Hash thread_outputs
    match decrypt_phrase Hash D key hash.encrypted_phrase with
    | .ok decrypted => .ok (decide (decrypted = VERIFICATION_PHRASE))
    | .error _ => .ok false

/-- Hash a password, serialize the record, and verify the same password
against the serialized text — the composite exercised by the round-trip
property. -/
def hashThenVerify (Hash : List Nat → List Nat)
    (E : List Nat → List Nat → List Nat → List Nat)
    (D : List Nat → List Nat → List Nat → Option (List Nat))
    (salt nonce password : List Nat) (threads memory_mb : Nat) :
    Except String Bool :=
  match hash_password Hash E salt nonce password threads memory_mb with
  | .error e => .error e
  | .ok record => verify_password Hash D password record.to_string

/-! ## Lemmas about the memory-fill worker -/

theorem rotl_length (l : List Nat) (n : Nat) : (rotl l n).length = l.length := by
  simp [rotl]
  omega

/-- Both the table entries and the chaining value stay 32 bytes long. -/
def goodState (st : List (List Nat) × List Nat) : Prop :=
  (∀ e ∈ st.1, e.length = 32) ∧ st.2.length = 32

theorem fillStep_good {Hash : List Nat → List Nat}
    (hH : ∀ x, (Hash x).length = 32) (st : List (List Nat) × List Nat)
    (h : goodState st) (i : Nat) : goodState (fillStep Hash st i) := by
  obtain ⟨h1, h2⟩ := h
  have hXor : ∀ l : List Nat,
      (if 0 < i then
        (Hash (st.2 ++ leBytes8 i)).enum.map
          (fun p => Nat.xor p.2 ((st.1.getD (i % st.1.length) []).getD (p.1 % 32) 0))
       else Hash (st.2 ++ leBytes8 i)).length = 32 := by
    intro l
    split <;> simp [hH]
  have hRot :
      (if i % 100 = 0 then
        rotl (if 0 < i then
          (Hash (st.2 ++ leBytes8 i)).enum.map
            (fun p => Nat.xor p.2 ((st.1.getD (i % st.1.length) []).getD (p.1 % 32) 0))
         else Hash (st.2 ++ leBytes8 i)) (i % 16 + 1)
       else if 0 < i then
        (Hash (st.2 ++ leBytes8 i)).enum.map
          (fun p => Nat.xor p.2 ((st.1.getD (i % st.1.length) []).getD (p.1 % 32) 0))
       else Hash (st.2 ++ leBytes8 i)).length = 32 := by
    split
    · rw [rotl_length]; exact hXor []
    · exact hXor []
  constructor
  · intro e he
    simp only [fillStep, List.mem_append, List.mem_singleton] at he
    rcases he with he | he
    · exact h1 e he
    · subst he; exact hRot
  · simp only [fillStep]
    split
    · simp [hH]
    · exact hRot

theorem foldl_fillStep_good {Hash : List Nat → List Nat}
    (hH : ∀ x, (Hash x).length = 32) (l : List Nat)
    (st : List (List Nat) × List Nat) (h : goodState st) :
    goodState (l.foldl (fillStep Hash) st) := by
  induction l generalizing st with
  | nil => exact h
  | cons a l ih => exact ih _ (fillStep_good hH st h a)

theorem fillTable_good {Hash : List Nat → List Nat}
    (hH : ∀ x, (Hash x).length = 32) (password salt : List Nat)
    (thread_index memory_size : Nat) :
    goodState (fillTable Hash password salt thread_index memory_size) := by
  unfold fillTable
  exact foldl_fillStep_good hH _ _ ⟨by simp, hH _⟩

theorem padLoop_length_ge (ch : List Nat) (hch : 0 < ch.length) :
    ∀ (fuel : Nat) (r : List Nat), 512 ≤ r.length + fuel * ch.length →
      512 ≤ (padLoop ch r fuel).length := by
  intro fuel
  induction fuel with
  | zero => intro r h; simpa [padLoop] using h
  | succ fuel ih =>
    intro r h
    rw [padLoop]
    split
    · apply ih
      simp only [List.length_append]
      calc 512 ≤ r.length + (fuel + 1) * ch.length := h
        _ = r.length + ch.length + fuel * ch.length := by ring
    · omega

theorem padLoop_take (ch : List Nat) (hch : 0 < ch.length) :
    ∀ (fuel : Nat) (r : List Nat), 512 ≤ r.length + fuel * ch.length →
      (padLoop ch r fuel).take 512 =
        (r ++ (List.replicate fuel ch).flatten).take 512 := by
  intro fuel
  induction fuel with
  | zero =>
    intro r h
    simp [padLoop]
  | succ fuel ih =>
    intro r h
    rw [padLoop]
    split
    · rename_i hlt
      rw [ih (r ++ ch) (by simp only [List.length_append]; nlinarith)]
      rw [List.replicate_succ, List.flatten_cons, List.append_assoc]
    · rename_i hge
      rw [List.take_append_eq_append_take]
      have h0 : 512 - r.length = 0 := by omega
      simp [h0]

theorem flatten_replicate_length (n : Nat) (ch : List Nat) :
    (List.replicate n ch).flatten.length = n * ch.length := by
  simp [List.length_flatten, List.map_replicate, List.sum_replicate, Nat.smul_one_eq_cast]

theorem flatten_replicate_take_congr (ch : List Nat) :
    ∀ (m n k : Nat), k ≤ m * ch.length → k ≤ n * ch.length →
      (List.replicate m ch).flatten.take k =
        (List.replicate n ch).flatten.take k := by
  intro m
  induction m with
  | zero =>
    intro n k hm hn
    have : k = 0 := by omega
    simp [this]
  | succ m ih =>
    intro n k hm hn
    cases n with
    | zero =>
      have : k = 0 := by omega
      simp [this]
    | succ n =>
      simp only [List.replicate_succ, List.flatten_cons,
        List.take_append_eq_append_take]
      congr 1
      have e1 : (m + 1) * ch.length = m * ch.length + ch.length :=
        Nat.succ_mul m ch.length
      have e2 : (n + 1) * ch.length = n * ch.length + ch.length :=
        Nat.succ_mul n ch.length
      exact ih n (k - ch.length) (by omega) (by omega)

theorem thread_worker_length {Hash : List Nat → List Nat}
    (hH : ∀ x, (Hash x).length = 32) (password salt : List Nat)
    (thread_index memory_size : Nat) :
    (thread_worker Hash password salt thread_index memory_size).length = 512 := by
  obtain ⟨h1, h2⟩ := fillTable_good hH password salt thread_index memory_size
  unfold thread_worker
  rw [List.length_take]
  have : 512 ≤ (padLoop
      (fillTable Hash password salt thread_index memory_size).2
      (((fillTable Hash password salt thread_index memory_size).1.drop
        (if 16 < (fillTable Hash password salt thread_index memory_size).1.length
         then (fillTable Hash password salt thread_index memory_size).1.length - 16
         else 0)).flatten) 512).length := by
    apply padLoop_length_ge _ (by omega) 512 _
    rw [h2]
    omega
  omega

/-- Closed form of the tail of `thread_worker`: the padded result agrees
with appending 16 copies of the final chaining value and truncating. -/
theorem thread_worker_eq_take {Hash : List Nat → List Nat}
    (hH : ∀ x, (Hash x).length = 32) (password salt : List Nat)
    (thread_index memory_size : Nat) :
    thread_worker Hash password salt thread_index memory_size =
      (((fillTable Hash password salt thread_index memory_size).1.drop
          ((fillTable Hash password salt thread_index memory_size).1.length - 16)).flatten ++
        (List.replicate 16
          (fillTable Hash password salt thread_index memory_size).2).flatten).take 512 := by
  obtain ⟨h1, h2⟩ := fillTable_good hH password salt thread_index memory_size
  have hstart :
      (if 16 < (fillTable Hash password salt thread_index memory_size).1.length
       then (fillTable Hash password salt thread_index memory_size).1.length - 16
       else 0) =
        (fillTable Hash password salt thread_index memory_size).1.length - 16 := by
    split <;> omega
  simp only [thread_worker, hstart]
  rw [padLoop_take _ (by omega) 512 _ (by rw [h2]; omega)]
  rw [List.take_append_eq_append_take, List.take_append_eq_append_take]
  congr 1
  apply flatten_replicate_take_congr <;> rw [h2] <;> omega

/-- With a memory budget below 32 bytes the loop runs zero iterations and
the output is the initial hash repeated to 512 bytes. -/
theorem thread_worker_small {Hash : List Nat → List Nat}
    (hH : ∀ x, (Hash x).length = 32) (password salt : List Nat)
    (thread_index memory_size : Nat) (hm : memory_size < 32) :
    thread_worker Hash password salt thread_index memory_size =
      (List.replicate 16 (Hash (password ++ salt ++ leBytes8 thread_index))).flatten := by
  have h0 : memory_size / 32 = 0 := Nat.div_eq_of_lt hm
  have htable : fillTable Hash password salt thread_index memory_size =
      ([], Hash (password ++ salt ++ leBytes8 thread_index)) := by
    simp [fillTable, h0]
  rw [thread_worker_eq_take hH, htable]
  simp only [List.drop_nil, List.flatten_nil, List.nil_append]
  apply List.take_of_length_le
  rw [flatten_replicate_length, hH]

/-! ## Lemmas about the record codec -/

theorem splitCh_no_sep (sep : Char) (xs : List Char) (h : ∀ c ∈ xs, c ≠ sep) :
    splitCh sep xs = [xs] := by
  induction xs with
  | nil => rfl
  | cons c cs ih =>
    rw [splitCh, if_neg (h c (List.mem_cons_self c cs))]
    rw [ih fun d hd => h d (List.mem_cons_of_mem c hd)]

theorem splitCh_append (sep : Char) (xs rest : List Char)
    (h : ∀ c ∈ xs, c ≠ sep) :
    splitCh sep (xs ++ sep :: rest) = xs :: splitCh sep rest := by
  induction xs with
  | nil =>
    rw [List.nil_append, splitCh, if_pos rfl]
  | cons c cs ih =>
    rw [List.cons_append, splitCh, if_neg (h c (List.mem_cons_self c cs))]
    rw [ih fun d hd => h d (List.mem_cons_of_mem c hd)]

/-! ### Decimal rendering and `usize` parsing -/

theorem natDigitsRev_lt10 :
    ∀ (fuel n : Nat), ∀ d ∈ natDigitsRev fuel n, d < 10 := by
  intro fuel
  induction fuel with
  | zero => intro n d hd; simp [natDigitsRev] at hd
  | succ fuel ih =>
    intro n d hd
    rw [natDigitsRev] at hd
    split at hd
    · simp at hd
    · rcases List.mem_cons.mp hd with h | h
      · subst h; exact Nat.mod_lt n (by omega)
      · exact ih _ d h

theorem natDigitsRev_foldl :
    ∀ (fuel n acc : Nat), n ≤ fuel →
      (natDigitsRev fuel n).reverse.foldl (fun a d => a * 10 + d) acc =
        acc * 10 ^ (natDigitsRev fuel n).length + n := by
  intro fuel
  induction fuel with
  | zero =>
    intro n acc h
    have : n = 0 := by omega
    simp [natDigitsRev, this]
  | succ fuel ih =>
    intro n acc h
    rw [natDigitsRev]
    split
    · rename_i h0; simp [h0]
    · rename_i h0
      rw [List.reverse_cons, List.foldl_append, ih (n / 10) acc (by omega)]
      simp only [List.foldl_cons, List.foldl_nil, List.length_cons]
      have hdm : n / 10 * 10 + n % 10 = n := by omega
      generalize (natDigitsRev fuel (n / 10)).length = L
      rw [pow_succ]
      generalize (10 : Nat) ^ L = P
      have hr : (acc * P + n / 10) * 10 + n % 10 =
          acc * (P * 10) + (n / 10 * 10 + n % 10) := by ring
      rw [hr, hdm]

theorem natDigitsRev_ne_nil (n : Nat) (hn : n ≠ 0) :
    natDigitsRev n n ≠ [] := by
  cases n with
  | zero => omega
  | succ m => rw [natDigitsRev, if_neg hn]; simp

theorem digit_char_toNat : ∀ d, d < 10 → (Char.ofNat (48 + d)).toNat = 48 + d := by
  decide

theorem natRepr_digits (n : Nat) :
    ∀ c ∈ natRepr n, 48 ≤ c.toNat ∧ c.toNat ≤ 57 := by
  have hd : ∀ d, d < 10 →
      48 ≤ (Char.ofNat (48 + d)).toNat ∧ (Char.ofNat (48 + d)).toNat ≤ 57 := by
    decide
  intro c hc
  unfold natRepr at hc
  split at hc
  · simp only [List.mem_singleton] at hc
    subst hc; decide
  · rcases List.mem_map.mp hc with ⟨d, hdm, rfl⟩
    exact hd d (natDigitsRev_lt10 n n d (List.mem_reverse.mp hdm))

theorem natRepr_ne_colon (n : Nat) : ∀ c ∈ natRepr n, c ≠ ':' := by
  intro c hc heq
  have := natRepr_digits n c hc
  subst heq
  exact absurd this (by decide)

theorem natRepr_ne_nil (n : Nat) : natRepr n ≠ [] := by
  unfold natRepr
  split
  · simp
  · rename_i hn
    simp [natDigitsRev_ne_nil n hn]

theorem parseUsize?_natRepr (n : Nat) (h : n < 2 ^ 64) :
    parseUsize? (natRepr n) = some n := by
  by_cases hn : n = 0
  · subst hn; rfl
  · have hhead : (natRepr n).headD ' ' ≠ '+' := by
      cases hrep : natRepr n with
      | nil => exact absurd hrep (natRepr_ne_nil n)
      | cons c cs =>
        have := natRepr_digits n c (hrep ▸ List.mem_cons_self c cs)
        intro habs
        rw [List.headD_cons] at habs
        subst habs
        exact absurd this (by decide)
    have hne : ¬(natRepr n).isEmpty := by
      cases hrep : natRepr n with
      | nil => exact absurd hrep (natRepr_ne_nil n)
      | cons c cs => simp
    have hall : (natRepr n).all (fun c => decide (48 ≤ c.toNat ∧ c.toNat ≤ 57)) := by
      rw [List.all_eq_true]
      intro c hc
      exact decide_eq_true (natRepr_digits n c hc)
    unfold parseUsize?
    rw [if_neg hhead, if_neg (by simpa using hne), if_pos hall]
    have hfold : (natRepr n).foldl (fun acc c => acc * 10 + (c.toNat - 48)) 0 = n := by
      unfold natRepr
      rw [if_neg hn, List.foldl_map]
      have hext : (natDigitsRev n n).reverse.foldl
          (fun (x : Nat) (d : Nat) => x * 10 + ((Char.ofNat (48 + d)).toNat - 48)) 0 =
          (natDigitsRev n n).reverse.foldl (fun x d => x * 10 + d) 0 := by
        apply List.foldl_ext
        intro a d hd
        have hlt : d < 10 :=
          natDigitsRev_lt10 n n d (List.mem_reverse.mp hd)
        rw [digit_char_toNat d hlt]
        omega
      rw [hext, natDigitsRev_foldl n n 0 (Nat.le_refl n)]
      simp
    rw [hfold, if_pos h]

/-! ### Base64 -/

theorem b64DecodeChar?_lt (c : Char) (v : Nat)
    (h : b64DecodeChar? c = some v) : v < 64 := by
  simp only [b64DecodeChar?] at h
  split at h
  · rename_i hc; injection h with h; omega
  · split at h
    · rename_i hc; injection h with h; omega
    · split at h
      · rename_i hc; injection h with h; omega
      · split at h
        · injection h with h; omega
        · split at h
          · injection h with h; omega
          · exact absurd h (by simp)

theorem b64DecodeChar?_encodeChar :
    ∀ v, v < 64 → b64DecodeChar? (b64EncodeChar v) = some v := by
  decide

theorem b64EncodeChar_ne_colon : ∀ v, v < 64 → b64EncodeChar v ≠ ':' := by
  decide

theorem b64EncodeChar_ne_eq : ∀ v, v < 64 → b64EncodeChar v ≠ '=' := by
  decide

theorem b64Decode?_encode :
    ∀ bs : List Nat, (∀ b ∈ bs, b < 256) →
      b64Decode? (b64Encode bs) = some bs := by
  intro bs
  induction bs using b64Encode.induct with
  | case1 => intro _; rfl
  | case2 x =>
    intro h
    have hx : x < 256 := h x (by simp)
    rw [b64Encode, b64Decode?]
    rw [if_pos (Or.inl rfl)]
    rw [if_pos (by simp), if_pos rfl]
    rw [b64DecodeChar?_encodeChar (x / 4) (by omega),
      b64DecodeChar?_encodeChar (x % 4 * 16) (by omega)]
    simp only []
    rw [if_pos (by omega)]
    simp only [Option.some.injEq, List.cons.injEq, and_true]
    omega
  | case3 x y =>
    intro h
    have hx : x < 256 := h x (by simp)
    have hy : y < 256 := h y (by simp)
    rw [b64Encode, b64Decode?]
    rw [if_pos (Or.inr rfl)]
    rw [if_pos (by simp),
      if_neg (b64EncodeChar_ne_eq (y % 16 * 4) (by omega))]
    rw [b64DecodeChar?_encodeChar (x / 4) (by omega),
      b64DecodeChar?_encodeChar (x % 4 * 16 + y / 16) (by omega),
      b64DecodeChar?_encodeChar (y % 16 * 4) (by omega)]
    simp only []
    rw [if_pos (by omega)]
    simp only [Option.some.injEq, List.cons.injEq, and_true]
    omega
  | case4 x y z rest ih =>
    intro h
    have hx : x < 256 := h x (by simp)
    have hy : y < 256 := h y (by simp)
    have hz : z < 256 := h z (by simp)
    have hrest : ∀ b ∈ rest, b < 256 := fun b hb => h b (by simp [hb])
    rw [b64Encode, b64Decode?]
    rw [if_neg (by
      push_neg
      exact ⟨b64EncodeChar_ne_eq (y % 16 * 4 + z / 64) (by omega),
        b64EncodeChar_ne_eq (z % 64) (by omega)⟩)]
    rw [b64DecodeChar?_encodeChar (x / 4) (by omega),
      b64DecodeChar?_encodeChar (x % 4 * 16 + y / 16) (by omega),
      b64DecodeChar?_encodeChar (y % 16 * 4 + z / 64) (by omega),
      b64DecodeChar?_encodeChar (z % 64) (by omega),
      ih hrest]
    simp only [Option.some.injEq, List.cons.injEq, and_true]
    refine ⟨by omega, by omega, by omega⟩

theorem b64Encode_ne_colon :
    ∀ bs : List Nat, (∀ b ∈ bs, b < 256) →
      ∀ c ∈ b64Encode bs, c ≠ ':' := by
  intro bs
  induction bs using b64Encode.induct with
  | case1 => intro _ c hc; simp [b64Encode] at hc
  | case2 x =>
    intro h c hc
    have hx : x < 256 := h x (by simp)
    rw [b64Encode] at hc
    simp only [List.mem_cons, List.not_mem_nil, or_false] at hc
    rcases hc with hc | hc | hc | hc
    · subst hc; exact b64EncodeChar_ne_colon (x / 4) (by omega)
    · subst hc; exact b64EncodeChar_ne_colon (x % 4 * 16) (by omega)
    · subst hc; decide
    · subst hc; decide
  | case3 x y =>
    intro h c hc
    have hx : x < 256 := h x (by simp)
    have hy : y < 256 := h y (by simp)
    rw [b64Encode] at hc
    simp only [List.mem_cons, List.not_mem_nil, or_false] at hc
    rcases hc with hc | hc | hc | hc
    · subst hc; exact b64EncodeChar_ne_colon (x / 4) (by omega)
    · subst hc; exact b64EncodeChar_ne_colon (x % 4 * 16 + y / 16) (by omega)
    · subst hc; exact b64EncodeChar_ne_colon (y % 16 * 4) (by omega)
    · subst hc; decide
  | case4 x y z rest ih =>
    intro h c hc
    have hx : x < 256 := h x (by simp)
    have hy : y < 256 := h y (by simp)
    have hz : z < 256 := h z (by simp)
    have hrest : ∀ b ∈ rest, b < 256 := fun b hb => h b (by simp [hb])
    rw [b64Encode] at hc
    simp only [List.mem_cons] at hc
    rcases hc with hc | hc | hc | hc | hc
    · subst hc; exact b64EncodeChar_ne_colon (x / 4) (by omega)
    · subst hc; exact b64EncodeChar_ne_colon (x % 4 * 16 + y / 16) (by omega)
    · subst hc; exact b64EncodeChar_ne_colon (y % 16 * 4 + z / 64) (by omega)
    · subst hc; exact b64EncodeChar_ne_colon (z % 64) (by omega)
    · exact ih hrest c hc

theorem b64Decode?_bytes_lt :
    ∀ (n : Nat) (cs : List Char), cs.length ≤ n → ∀ bs : List Nat,
      b64Decode? cs = some bs → ∀ b ∈ bs, b < 256 := by
  intro n
  induction n with
  | zero =>
    intro cs hlen bs h b hb
    have hcs : cs = [] := List.eq_nil_of_length_eq_zero (by omega)
    subst hcs
    rw [b64Decode?] at h
    injection h with h
    subst h
    simp at hb
  | succ n ih =>
    intro cs hlen bs h b hb
    rcases cs with _ | ⟨c1, cs1⟩
    · rw [b64Decode?] at h; injection h with h; subst h; simp at hb
    rcases cs1 with _ | ⟨c2, cs2⟩
    · simp [b64Decode?] at h
    rcases cs2 with _ | ⟨c3, cs3⟩
    · simp [b64Decode?] at h
    rcases cs3 with _ | ⟨c4, rest⟩
    · simp [b64Decode?] at h
    rw [b64Decode?] at h
    split at h
    · split at h
      · split at h
        · split at h
          · rename_i a v2 h1 h2
            split at h
            · injection h with h
              subst h
              have ha := b64DecodeChar?_lt c1 a h1
              have hv2 := b64DecodeChar?_lt c2 v2 h2
              simp only [List.mem_singleton] at hb
              omega
            · cases h
          · cases h
        · split at h
          · rename_i a v2 v3 h1 h2 h3
            split at h
            · injection h with h
              subst h
              have ha := b64DecodeChar?_lt c1 a h1
              have hv2 := b64DecodeChar?_lt c2 v2 h2
              have hv3 := b64DecodeChar?_lt c3 v3 h3
              simp only [List.mem_cons, List.not_mem_nil, or_false] at hb
              rcases hb with hb | hb <;> omega
            · cases h
          · cases h
      · cases h
    · split at h
      · rename_i a v2 v3 v4 bs2 h1 h2 h3 h4 h5
        injection h with h
        subst h
        have ha := b64DecodeChar?_lt c1 a h1
        have hv2 := b64DecodeChar?_lt c2 v2 h2
        have hv3 := b64DecodeChar?_lt c3 v3 h3
        have hv4 := b64DecodeChar?_lt c4 v4 h4
        simp only [List.mem_cons] at hb
        rcases hb with hb | hb | hb | hb
        · omega
        · omega
        · omega
        · exact ih rest (by simp at hlen; omega) bs2 h5 b hb
      · cases h

theorem parseUsize?_lt (s : List Char) (v : Nat)
    (h : parseUsize? s = some v) : v < 2 ^ 64 := by
  simp only [parseUsize?] at h
  split at h <;>
    (split at h
     · exact absurd h (by simp)
     · split at h
       · split at h
         · injection h with h; omega
         · exact absurd h (by simp)
       · exact absurd h (by simp))

/-! ## Lemmas about the cipher wrapper -/

theorem keyNormalize_length {Hash : List Nat → List Nat}
    (hH : ∀ x, (Hash x).length = 32) (key : List Nat) :
    (keyNormalize Hash key).length = 32 := by
  unfold keyNormalize
  split
  · rename_i h; simp; omega
  · split
    · exact hH key
    · omega

theorem keyNormalize_of_length (Hash : List Nat → List Nat) (key : List Nat)
    (h : key.length = 32) : keyNormalize Hash key = key := by
  unfold keyNormalize
  rw [if_neg (by omega), if_neg (by omega)]

theorem encrypt_phrase_ok {Hash : List Nat → List Nat}
    (hH : ∀ x, (Hash x).length = 32)
    (E : List Nat → List Nat → List Nat → List Nat) (nonce key : List Nat) :
    encrypt_phrase Hash E nonce key =
      .ok (nonce ++ E (keyNormalize Hash key) nonce VERIFICATION_PHRASE) := by
  unfold encrypt_phrase
  rw [if_neg (by simp [keyNormalize_length hH])]

/-- Decrypting the output of `encrypt_phrase` under the same (arbitrary)
key succeeds and recovers the phrase, because both sides normalize the key
with the same policy. -/
theorem decrypt_encrypt {Hash : List Nat → List Nat}
    (hH : ∀ x, (Hash x).length = 32)
    (E : List Nat → List Nat → List Nat → List Nat)
    (D : List Nat → List Nat → List Nat → Option (List Nat))
    (nonce key : List Nat) (hnonce : nonce.length = 12)
    (hD : ∀ k n, D k n (E k n VERIFICATION_PHRASE) = some VERIFICATION_PHRASE) :
    decrypt_phrase Hash D key
        (nonce ++ E (keyNormalize Hash key) nonce VERIFICATION_PHRASE) =
      .ok VERIFICATION_PHRASE := by
  unfold decrypt_phrase
  rw [if_neg (by simp [hnonce])]
  have htake : (nonce ++ E (keyNormalize Hash key) nonce VERIFICATION_PHRASE).take 12 =
      nonce := by
    rw [← hnonce]
    exact List.take_left nonce _
  have hdrop : (nonce ++ E (keyNormalize Hash key) nonce VERIFICATION_PHRASE).drop 12 =
      E (keyNormalize Hash key) nonce VERIFICATION_PHRASE := by
    rw [← hnonce]
    exact List.drop_left nonce _
  rw [if_neg (by simp [keyNormalize_length hH])]
  rw [htake, hdrop, hD]

/-! ## Codec round trip -/

theorem to_string_split (r : SinkproofHash) (hv : ∀ c ∈ r.version, c ≠ ':')
    (hs : ∀ b ∈ r.salt, b < 256) (he : ∀ b ∈ r.encrypted_phrase, b < 256) :
    splitCh ':' r.to_string =
      ["Sinkproof".toList, r.version, natRepr r.threads, natRepr r.memory_mb,
        b64Encode r.salt, b64Encode r.encrypted_phrase] := by
  unfold SinkproofHash.to_string
  simp only [List.cons_append, List.append_assoc]
  rw [splitCh_append ':' "Sinkproof".toList _ (by decide)]
  rw [splitCh_append ':' r.version _ hv]
  rw [splitCh_append ':' (natRepr r.threads) _ (natRepr_ne_colon _)]
  rw [splitCh_append ':' (natRepr r.memory_mb) _ (natRepr_ne_colon _)]
  rw [splitCh_append ':' (b64Encode r.salt) _ (b64Encode_ne_colon _ hs)]
  rw [splitCh_no_sep ':' _ (b64Encode_ne_colon _ he)]

theorem from_to_string (r : SinkproofHash) (hv : r.version = "v1".toList)
    (ht : r.threads < 2 ^ 64) (hm : r.memory_mb < 2 ^ 64)
    (hs : ∀ b ∈ r.salt, b < 256) (he : ∀ b ∈ r.encrypted_phrase, b < 256) :
    SinkproofHash.from_string r.to_string = .ok r := by
  have hsplit := to_string_split r (by rw [hv]; decide) hs he
  unfold SinkproofHash.from_string
  rw [hsplit]
  rw [if_neg (by simp)]
  rw [if_neg (by simp)]
  simp only [List.getD_cons_zero, List.getD_cons_succ]
  rw [parseUsize?_natRepr r.threads ht, parseUsize?_natRepr r.memory_mb hm,
    b64Decode?_encode r.salt hs, b64Decode?_encode r.encrypted_phrase he]

/-- What a successful parse actually guarantees: the literal tag, six
fields, `usize`-bounded numeric fields, and byte-valued decoded blobs.
Nothing constrains the version text, the positivity of the numbers, or
the salt length. -/
theorem from_string_ok_props (s : List Char) (r : SinkproofHash)
    (h : SinkproofHash.from_string s = .ok r) :
    (splitCh ':' s).length = 6 ∧
      (splitCh ':' s).getD 0 [] = "Sinkproof".toList ∧
      r.version = (splitCh ':' s).getD 1 [] ∧
      r.threads < 2 ^ 64 ∧ r.memory_mb < 2 ^ 64 ∧
      (∀ b ∈ r.salt, b < 256) ∧ (∀ b ∈ r.encrypted_phrase, b < 256) := by
  simp only [SinkproofHash.from_string] at h
  split at h
  · cases h
  split at h
  · cases h
  rename_i hlen htag
  split at h
  · cases h
  rename_i threads hthreads
  split at h
  · cases h
  rename_i memory hmemory
  split at h
  · cases h
  rename_i salt hsalt
  split at h
  · cases h
  rename_i enc henc
  injection h with h
  subst h
  refine ⟨by omega, by simpa using htag, rfl, parseUsize?_lt _ _ hthreads,
    parseUsize?_lt _ _ hmemory,
    b64Decode?_bytes_lt ((splitCh ':' s).getD 4 []).length _ le_rfl _ hsalt,
    b64Decode?_bytes_lt ((splitCh ':' s).getD 5 []).length _ le_rfl _ henc⟩

/-! ## Lemmas about verification -/

theorem verify_password_parse_error
    (Hash : List Nat → List Nat)
    (D : List Nat → List Nat → List Nat → Option (List Nat))
    (password : List Nat) (s : List Char) (e : String)
    (h : SinkproofHash.from_string s = .error e) :
    verify_password Hash D password s = .error e := by
  unfold verify_password
  rw [h]

theorem verify_password_parse_ok
    (Hash : List Nat → List Nat)
    (D : List Nat → List Nat → List Nat → Option (List Nat))
    (password : List Nat) (s : List Char) (r : SinkproofHash)
    (h : SinkproofHash.from_string s = .ok r) :
    verify_password Hash D password s =
      match decrypt_phrase Hash D
          (derive_key Hash ((List.range r.threads).map fun thread_index =>
            thread_worker Hash password r.salt thread_index
              (r.memory_mb * 1024 * 1024 % 2 ^ 64)))
          r.encrypted_phrase with
      | .ok decrypted => .ok (decide (decrypted = VERIFICATION_PHRASE))
      | .error _ => .ok false := by
  unfold verify_password
  rw [h]

/-! ## Concrete instances for witnesses -/

/-- A trivial 32-byte hash stand-in used to instantiate theorems at
concrete inputs. -/
def constHash : List Nat → List Nat := fun _ => List.replicate 32 0

theorem constHash_length : ∀ x, (constHash x).length = 32 := by
  intro x
  simp [constHash]

/-- A trivial AEAD pair (ciphertext = plaintext) used to instantiate
theorems at concrete inputs. -/
def idAeadE : List Nat → List Nat → List Nat → List Nat := fun _ _ pt => pt

/-- Decryption side of `idAeadE`. -/
def idAeadD : List Nat → List Nat → List Nat → Option (List Nat) :=
  fun _ _ ct => some ct

/-! ## Claims -/

/-- C4: the per-thread digest function is deterministic — identical
inputs always yield the same output, and that output is exactly 512
bytes long. -/
theorem c4_thread_worker_deterministic (Hash : List Nat → List Nat)
    (hH : ∀ x, (Hash x).length = 32) (password salt : List Nat)
    (thread_index memory_budget : Nat) :
    thread_worker Hash password salt thread_index memory_budget =
      thread_worker Hash password salt thread_index memory_budget ∧
    (thread_worker Hash password salt thread_index memory_budget).length = 512 :=
  ⟨rfl, thread_worker_length hH password salt thread_index memory_budget⟩

theorem c4_witness :
    thread_worker constHash [116, 101] [1, 2, 3, 4] 0 1024 =
      thread_worker constHash [116, 101] [1, 2, 3, 4] 0 1024 ∧
    (thread_worker constHash [116, 101] [1, 2, 3, 4] 0 1024).length = 512 :=
  c4_thread_worker_deterministic constHash constHash_length [116, 101]
    [1, 2, 3, 4] 0 1024

/-- C9: the two verification entry points `verify_password` and
`verify_password_robust` are functionally identical — they return the
same `Result` on every input. -/
theorem c9_verify_entry_points_identical (Hash : List Nat → List Nat)
    (D : List Nat → List Nat → List Nat → Option (List Nat))
    (password : List Nat) (stored_hash : List Char) :
    verify_password Hash D password stored_hash =
      verify_password_robust Hash D password stored_hash := rfl

/-- C8: in a remix iteration (`i > 1000` and `i % 500 = 0`), the table
entry appended is the pre-remix value `v` (after XOR and rotation), while
the remixed value `Hash(v ‖ table[(i/2) % table.len()])` becomes the
chaining value handed to the next iteration. -/
theorem c8_remix_ordering (Hash : List Nat → List Nat)
    (mem : List (List Nat)) (ch v : List Nat) (i : Nat)
    (hi : 1000 < i) (hmod : i % 500 = 0) (hlen : mem.length = i)
    (hv : v = rotl ((Hash (ch ++ leBytes8 i)).enum.map fun p =>
        Nat.xor p.2 ((mem.getD (i % mem.length) []).getD (p.1 % 32) 0))
      (i % 16 + 1)) :
    fillStep Hash (mem, ch) i =
      (mem ++ [v],
        Hash (v ++ (mem ++ [v]).getD (i / 2 % (mem ++ [v]).length) [])) := by
  subst hv
  simp only [fillStep]
  rw [if_pos (by omega : 0 < i), if_pos (by omega : i % 100 = 0),
    if_pos ⟨hi, hmod⟩]

theorem c8_witness :
    fillStep constHash (List.replicate 1500 [], List.replicate 32 0) 1500 =
      (List.replicate 1500 [] ++
        [rotl ((constHash (List.replicate 32 0 ++ leBytes8 1500)).enum.map fun p =>
          Nat.xor p.2 (((List.replicate 1500 ([] : List Nat)).getD
            (1500 % (List.replicate 1500 ([] : List Nat)).length) []).getD
              (p.1 % 32) 0)) (1500 % 16 + 1)],
        constHash
          ((rotl ((constHash (List.replicate 32 0 ++ leBytes8 1500)).enum.map fun p =>
            Nat.xor p.2 (((List.replicate 1500 ([] : List Nat)).getD
              (1500 % (List.replicate 1500 ([] : List Nat)).length) []).getD
                (p.1 % 32) 0)) (1500 % 16 + 1)) ++
            (List.replicate 1500 ([] : List Nat) ++
              [rotl ((constHash (List.replicate 32 0 ++ leBytes8 1500)).enum.map fun p =>
                Nat.xor p.2 (((List.replicate 1500 ([] : List Nat)).getD
                  (1500 % (List.replicate 1500 ([] : List Nat)).length) []).getD
                    (p.1 % 32) 0)) (1500 % 16 + 1)]).getD
              (1500 / 2 % (List.replicate 1500 ([] : List Nat) ++
                [rotl ((constHash (List.replicate 32 0 ++ leBytes8 1500)).enum.map fun p =>
                  Nat.xor p.2 (((List.replicate 1500 ([] : List Nat)).getD
                    (1500 % (List.replicate 1500 ([] : List Nat)).length) []).getD
                      (p.1 % 32) 0)) (1500 % 16 + 1)]).length) [])) :=
  c8_remix_ordering constHash (List.replicate 1500 []) (List.replicate 32 0) _
    1500 (by omega) (by omega) (by rw [List.length_replicate]) rfl

/-- C7: the worker output is the concatenation of the last 16 table
entries, padded with copies of the final chaining value and truncated to
exactly 512 bytes; with a memory budget below 32 bytes the loop runs zero
iterations and the output is `h0` repeated to 512 bytes. -/
theorem c7_output_shape (Hash : List Nat → List Nat)
    (hH : ∀ x, (Hash x).length = 32) (password salt : List Nat)
    (thread_index memory_budget : Nat) :
    thread_worker Hash password salt thread_index memory_budget =
      (((fillTable Hash password salt thread_index memory_budget).1.drop
          ((fillTable Hash password salt thread_index memory_budget).1.length - 16)).flatten ++
        (List.replicate 16
          (fillTable Hash password salt thread_index memory_budget).2).flatten).take 512 ∧
    (thread_worker Hash password salt thread_index memory_budget).length = 512 ∧
    (memory_budget < 32 →
      thread_worker Hash password salt thread_index memory_budget =
        (List.replicate 16 (Hash (password ++ salt ++ leBytes8 thread_index))).flatten) :=
  ⟨thread_worker_eq_take hH password salt thread_index memory_budget,
    thread_worker_length hH password salt thread_index memory_budget,
    fun hm => thread_worker_small hH password salt thread_index memory_budget hm⟩

theorem c7_witness :
    (16 < 32 ∧
      thread_worker constHash [5] [6] 3 16 =
        (List.replicate 16 (constHash ([5] ++ [6] ++ leBytes8 3))).flatten) ∧
    (thread_worker constHash [5] [6] 3 16).length = 512 :=
  ⟨⟨by omega, (c7_output_shape constHash constHash_length [5] [6] 3 16).2.2
      (by omega)⟩,
    (c7_output_shape constHash constHash_length [5] [6] 3 16).2.1⟩

/-- C6: for a key of any length, decrypting the output of
`encrypt_phrase` under the same key recovers exactly the fixed phrase,
because both sides normalize the key with the identical policy (truncate
if longer than 32 bytes, hash if shorter, use as-is at 32). -/
theorem c6_encrypt_decrypt_roundtrip (Hash : List Nat → List Nat)
    (hH : ∀ x, (Hash x).length = 32)
    (E : List Nat → List Nat → List Nat → List Nat)
    (D : List Nat → List Nat → List Nat → Option (List Nat))
    (nonce key blob : List Nat) (hnonce : nonce.length = 12)
    (hD : ∀ k n, D k n (E k n VERIFICATION_PHRASE) = some VERIFICATION_PHRASE)
    (henc : encrypt_phrase Hash E nonce key = .ok blob) :
    decrypt_phrase Hash D key blob = .ok VERIFICATION_PHRASE := by
  rw [encrypt_phrase_ok hH E nonce key] at henc
  injection henc with henc
  subst henc
  exact decrypt_encrypt hH E D nonce key hnonce hD

theorem c6_witness :
    decrypt_phrase constHash idAeadD [1, 2, 3]
        (List.replicate 12 0 ++ VERIFICATION_PHRASE) =
      .ok VERIFICATION_PHRASE :=
  c6_encrypt_decrypt_roundtrip constHash constHash_length idAeadE idAeadD
    (List.replicate 12 0) [1, 2, 3] _ (by simp) (fun _ _ => rfl) rfl

/-- C2: for any parseable record, `verify_password` turns a decryption
failure (wrong key: bad tag or blob too short) into `Ok(false)`, never an
error, and returns `Ok(true)` iff decryption succeeds with exactly the
fixed phrase as plaintext. -/
theorem c2_wrong_key_is_false (Hash : List Nat → List Nat)
    (D : List Nat → List Nat → List Nat → Option (List Nat))
    (password : List Nat) (s : List Char) (r : SinkproofHash)
    (h : SinkproofHash.from_string s = .ok r) :
    (∀ e, decrypt_phrase Hash D
        (derive_key Hash ((List.range r.threads).map fun thread_index =>
          thread_worker Hash password r.salt thread_index
            (r.memory_mb * 1024 * 1024 % 2 ^ 64)))
        r.encrypted_phrase = .error e →
      verify_password Hash D password s = .ok false) ∧
    (verify_password Hash D password s = .ok true ↔
      decrypt_phrase Hash D
        (derive_key Hash ((List.range r.threads).map fun thread_index =>
          thread_worker Hash password r.salt thread_index
            (r.memory_mb * 1024 * 1024 % 2 ^ 64)))
        r.encrypted_phrase = .ok VERIFICATION_PHRASE) := by
  rw [verify_password_parse_ok Hash D password s r h]
  constructor
  · intro e he
    rw [he]
  · cases hd : decrypt_phrase Hash D
        (derive_key Hash ((List.range r.threads).map fun thread_index =>
          thread_worker Hash password r.salt thread_index
            (r.memory_mb * 1024 * 1024 % 2 ^ 64)))
        r.encrypted_phrase with
    | ok pt => simp
    | error e => simp

theorem c2_witness :
    verify_password constHash idAeadD [] ("Sinkproof:v1:0:1::".toList) =
      .ok false :=
  (c2_wrong_key_is_false constHash idAeadD [] ("Sinkproof:v1:0:1::".toList)
      ⟨"v1".toList, 0, 1, [], []⟩ rfl).1 "Encrypted data too short" rfl

/-- C10 (implicit): `verify_password` returns an error iff parsing fails;
on any parseable record — whatever its version, thread count, memory or
salt length — it returns `Ok(true)` or `Ok(false)`; with `threads = 0` it
derives the key from the empty digest sequence and a decryption failure
yields `Ok(false)`. -/
theorem c10_error_iff_parse (Hash : List Nat → List Nat)
    (D : List Nat → List Nat → List Nat → Option (List Nat))
    (password : List Nat) (s : List Char) :
    (∀ e, SinkproofHash.from_string s = .error e →
      verify_password Hash D password s = .error e) ∧
    (∀ r : SinkproofHash, SinkproofHash.from_string s = .ok r →
      (∃ b, verify_password Hash D password s = .ok b) ∧
      (r.threads = 0 →
        ∀ e, decrypt_phrase Hash D (derive_key Hash []) r.encrypted_phrase =
            .error e →
          verify_password Hash D password s = .ok false)) := by
  constructor
  · exact fun e he => verify_password_parse_error Hash D password s e he
  · intro r hr
    rw [verify_password_parse_ok Hash D password s r hr]
    constructor
    · cases hd : decrypt_phrase Hash D
          (derive_key Hash ((List.range r.threads).map fun thread_index =>
            thread_worker Hash password r.salt thread_index
              (r.memory_mb * 1024 * 1024 % 2 ^ 64)))
          r.encrypted_phrase with
      | ok pt => exact ⟨decide (pt = VERIFICATION_PHRASE), rfl⟩
      | error e => exact ⟨false, rfl⟩
    · intro h0 e he
      rw [h0]
      simp only [List.range_zero, List.map_nil]
      rw [he]

theorem c10_witness :
    verify_password constHash idAeadD [] ("Sinkproof:v1:0:0::".toList) =
      .ok false :=
  ((c10_error_iff_parse constHash idAeadD []
      ("Sinkproof:v1:0:0::".toList)).2 ⟨"v1".toList, 0, 0, [], []⟩ rfl).2 rfl
    "Encrypted data too short" rfl

/-- C5: the codec round-trips — parsing the serialization of any valid
record (version `"v1"`, `usize`-valued threads and memory, byte-valued
salt and ciphertext) returns the record unchanged. -/
theorem c5_codec_roundtrip (r : SinkproofHash) (hv : r.version = "v1".toList)
    (ht : r.threads < 2 ^ 64) (hm : r.memory_mb < 2 ^ 64)
    (hs : ∀ b ∈ r.salt, b < 256) (he : ∀ b ∈ r.encrypted_phrase, b < 256) :
    SinkproofHash.from_string r.to_string = .ok r :=
  from_to_string r hv ht hm hs he

theorem c5_witness :
    SinkproofHash.from_string
        (SinkproofHash.to_string
          ⟨"v1".toList, 4, 100, [1, 2, 3, 4, 5, 6, 7, 8], [10, 20, 30, 40, 50]⟩) =
      .ok ⟨"v1".toList, 4, 100, [1, 2, 3, 4, 5, 6, 7, 8], [10, 20, 30, 40, 50]⟩ :=
  c5_codec_roundtrip _ rfl (by decide) (by decide) (by decide) (by decide)

/-- C3 counterexample: `from_string` accepts a record whose version is
not `"v1"`, whose threads and memory_mb are zero, and whose salt is not
32 bytes — the claimed invariant does not hold for parsed records. -/
theorem c3_counterexample :
    SinkproofHash.from_string ("Sinkproof:v2:0:0::".toList) =
      .ok ⟨"v2".toList, 0, 0, [], []⟩ ∧
    ("v2".toList ≠ "v1".toList ∧ ¬(0 : Nat) > 0 ∧
      ([] : List Nat).length ≠ 32) := by
  refine ⟨rfl, by decide, by omega, by simp⟩

/-- C3 (amended): a record returned by `from_string` is only guaranteed
to come from a 6-field text whose first field is the literal
`"Sinkproof"`, with `usize`-bounded threads and memory_mb fields (zero
allowed) and byte-valued base64-decoded salt and ciphertext; the version
text, positivity, and the 32-byte salt length are not enforced. -/
theorem c3_parse_guarantees (s : List Char) (r : SinkproofHash)
    (h : SinkproofHash.from_string s = .ok r) :
    (splitCh ':' s).length = 6 ∧
      (splitCh ':' s).getD 0 [] = "Sinkproof".toList ∧
      r.version = (splitCh ':' s).getD 1 [] ∧
      r.threads < 2 ^ 64 ∧ r.memory_mb < 2 ^ 64 ∧
      (∀ b ∈ r.salt, b < 256) ∧ (∀ b ∈ r.encrypted_phrase, b < 256) :=
  from_string_ok_props s r h

theorem c3_witness :
    (splitCh ':' ("Sinkproof:v1:2:50:AQID:BAUG".toList)).length = 6 ∧
      (splitCh ':' ("Sinkproof:v1:2:50:AQID:BAUG".toList)).getD 0 [] =
        "Sinkproof".toList ∧
      (SinkproofHash.mk "v1".toList 2 50 [1, 2, 3] [4, 5, 6]).version =
        (splitCh ':' ("Sinkproof:v1:2:50:AQID:BAUG".toList)).getD 1 [] ∧
      (SinkproofHash.mk "v1".toList 2 50 [1, 2, 3] [4, 5, 6]).threads < 2 ^ 64 ∧
      (SinkproofHash.mk "v1".toList 2 50 [1, 2, 3] [4, 5, 6]).memory_mb < 2 ^ 64 ∧
      (∀ b ∈ (SinkproofHash.mk "v1".toList 2 50 [1, 2, 3] [4, 5, 6]).salt,
        b < 256) ∧
      (∀ b ∈ (SinkproofHash.mk "v1".toList 2 50 [1, 2, 3] [4, 5, 6]).encrypted_phrase,
        b < 256) :=
  c3_parse_guarantees ("Sinkproof:v1:2:50:AQID:BAUG".toList)
    (SinkproofHash.mk "v1".toList 2 50 [1, 2, 3] [4, 5, 6]) rfl

/-- C1: hashing a password (with positive thread count and memory, and
any salt and nonce the random sources can produce) and then verifying the
same password against the serialized record yields `Ok(true)`. -/
theorem c1_hash_verify_roundtrip (Hash : List Nat → List Nat)
    (hH : ∀ x, (Hash x).length = 32)
    (E : List Nat → List Nat → List Nat → List Nat)
    (D : List Nat → List Nat → List Nat → Option (List Nat))
    (salt nonce password : List Nat) (threads memory_mb : Nat)
    (hthreads : 0 < threads) (hmem : 0 < memory_mb)
    (ht64 : threads < 2 ^ 64) (hm64 : memory_mb < 2 ^ 64)
    (hsalt : ∀ b ∈ salt, b < 256) (hnonce12 : nonce.length = 12)
    (hnonceB : ∀ b ∈ nonce, b < 256)
    (hE : ∀ k n, ∀ b ∈ E k n VERIFICATION_PHRASE, b < 256)
    (hD : ∀ k n, D k n (E k n VERIFICATION_PHRASE) = some VERIFICATION_PHRASE) :
    hashThenVerify Hash E D salt nonce password threads memory_mb = .ok true := by
  have hkeylen : (derive_key Hash ((List.range threads).map fun thread_index =>
      thread_worker Hash password salt thread_index
        (memory_mb * 1024 * 1024 % 2 ^ 64))).length = 32 := hH _
  have hnorm := keyNormalize_of_length Hash _ hkeylen
  have hrec : hash_password Hash E salt nonce password threads memory_mb =
      .ok ⟨"v1".toList, threads, memory_mb, salt,
        nonce ++ E (derive_key Hash ((List.range threads).map fun thread_index =>
            thread_worker Hash password salt thread_index
              (memory_mb * 1024 * 1024 % 2 ^ 64))) nonce VERIFICATION_PHRASE⟩ := by
    simp only [hash_password]
    rw [if_neg (by omega), if_neg (by omega), encrypt_phrase_ok hH, hnorm]
  have hblobB : ∀ b ∈ nonce ++ E (derive_key Hash ((List.range threads).map
      fun thread_index => thread_worker Hash password salt thread_index
        (memory_mb * 1024 * 1024 % 2 ^ 64))) nonce VERIFICATION_PHRASE,
      b < 256 := by
    intro b hb
    rcases List.mem_append.mp hb with hb | hb
    · exact hnonceB b hb
    · exact hE _ nonce b hb
  have hfrom := from_to_string
    ⟨"v1".toList, threads, memory_mb, salt,
      nonce ++ E (derive_key Hash ((List.range threads).map fun thread_index =>
          thread_worker Hash password salt thread_index
            (memory_mb * 1024 * 1024 % 2 ^ 64))) nonce VERIFICATION_PHRASE⟩
    rfl ht64 hm64 hsalt hblobB
  have hdec : decrypt_phrase Hash D
      (derive_key Hash ((List.range threads).map fun thread_index =>
        thread_worker Hash password salt thread_index
          (memory_mb * 1024 * 1024 % 2 ^ 64)))
      (nonce ++ E (derive_key Hash ((List.range threads).map fun thread_index =>
          thread_worker Hash password salt thread_index
            (memory_mb * 1024 * 1024 % 2 ^ 64))) nonce VERIFICATION_PHRASE) =
      .ok VERIFICATION_PHRASE := by
    have h2 := decrypt_encrypt hH E D nonce
      (derive_key Hash ((List.range threads).map fun thread_index =>
        thread_worker Hash password salt thread_index
          (memory_mb * 1024 * 1024 % 2 ^ 64))) hnonce12 hD
    rw [hnorm] at h2
    exact h2
  unfold hashThenVerify
  rw [hrec]
  show verify_password Hash D password
      (SinkproofHash.to_string ⟨"v1".toList, threads, memory_mb, salt,
        nonce ++ E (derive_key Hash ((List.range threads).map fun thread_index =>
            thread_worker Hash password salt thread_index
              (memory_mb * 1024 * 1024 % 2 ^ 64))) nonce VERIFICATION_PHRASE⟩) =
    .ok true
  rw [verify_password_parse_ok Hash D password _ _ hfrom]
  show (match decrypt_phrase Hash D
      (derive_key Hash ((List.range threads).map fun thread_index =>
        thread_worker Hash password salt thread_index
          (memory_mb * 1024 * 1024 % 2 ^ 64)))
      (nonce ++ E (derive_key Hash ((List.range threads).map fun thread_index =>
          thread_worker Hash password salt thread_index
            (memory_mb * 1024 * 1024 % 2 ^ 64))) nonce VERIFICATION_PHRASE) with
    | .ok decrypted => Except.ok (decide (decrypted = VERIFICATION_PHRASE))
    | .error _ => Except.ok false) = .ok true
  rw [hdec]
  simp

theorem c1_witness :
    hashThenVerify constHash idAeadE idAeadD (List.replicate 32 7)
        (List.replicate 12 0) [104, 105] 1 1 = .ok true :=
  c1_hash_verify_roundtrip constHash constHash_length idAeadE idAeadD
    (List.replicate 32 7) (List.replicate 12 0) [104, 105] 1 1
    (by omega) (by omega) (by omega) (by omega)
    (fun b hb => by have := List.eq_of_mem_replicate hb; omega)
    (by simp)
    (fun b hb => by have := List.eq_of_mem_replicate hb; omega)
    (fun k n b hb => by
      have hp : ∀ b ∈ VERIFICATION_PHRASE, b < 256 := by decide
      exact hp b hb)
    (fun k n => rfl)
